import Mathlib

/-!
Verification of the streaming wake-word detection engine of this repository.

The repository contains two variants of the engine:

* `src/python/openwakeword_server.py` (the "server" variant): reads chunks
  of up to 4096 bytes from stdin, buffers them, slices off 2560-byte frames,
  scores each frame, emits `{"event":"wakeword",...}` on `score > threshold`,
  tracks a rolling `max_score`, counts `frames_processed`, and emits a
  `{"event":"debug",...}` record every 50 frames.

* `src/scripts/openwakeword-detector.py` (the "detector" variant): reads
  2560-byte chunks, buffers them, slices off 2560-byte frames, scores each,
  emits `{"detected":true,...}` on `score >= threshold`, and prints
  `{"status":"stopped"}` on end of stream.

The embedding below models bytes as `Nat`, audio samples as `Int`,
scores and thresholds as `ℚ`, and the stateful scoring model as an oracle
`Nat → Option (List (String × ℚ))` mapping the index of a scoring call to
either the returned score map (`some`) or a raised exception (`none`).
Recursion on the byte buffer is expressed with an explicit fuel argument:
one unit of fuel per buffered byte suffices, since every iteration of the
inner `while` loop consumes `frameSize = 2560 ≥ 1` bytes.
-/

set_option maxRecDepth 100000

namespace Oww

/-- Events and side effects the engine can produce, in emission order.
`emitDetection` is the detection record (`wakeword` / `detected:true`),
`emitDebug` the periodic 50-frame telemetry record of the server variant,
`emitDebugScore` the per-score debug print of the detector variant,
`emitError` an error record, `emitStopped` the `{"status":"stopped"}`
record, and `resetModel` the `model.reset()` call. -/
inductive Act where
  | emitDetection : String → ℚ → Act
  | emitDebug : Nat → ℚ → Act
  | emitDebugScore : String → ℚ → Act
  | emitError : Act
  | emitStopped : Act
  | resetModel : Act
deriving DecidableEq, Repr

/-- Bytes per audio frame: `CHUNK_SIZE * 2 = 1280 * 2 = 2560` in both
variants (`frame_size` in the server, `bytes_per_chunk` in the detector). -/
def frameSize : Nat := 2560

/-- Fuelled frame extraction: the inner
`while len(buffer) >= frame_size: frame = buffer[:frame_size]; buffer = buffer[frame_size:]`
loop shared by both variants, returning the extracted frames in order and
the remaining buffer. -/
def extractGo : Nat → List Nat → List (List Nat) × List Nat
  | 0, buf => ([], buf)
  | fuel + 1, buf =>
    if frameSize ≤ buf.length then
      let r := extractGo fuel (buf.drop frameSize)
      (buf.take frameSize :: r.1, r.2)
    else ([], buf)

/-- Frame extraction from a buffer: run the `while` loop to completion
(`buf.length` fuel always suffices). -/
def extractFrames (buf : List Nat) : List (List Nat) × List Nat :=
  extractGo buf.length buf

/-- State of the frame assembly loop of the server variant: the byte
buffer `audio_buffer` and the lifetime counter `frames_processed`. -/
structure AsmState where
  buffer : List Nat
  frames_processed : Nat
deriving DecidableEq, Repr

/-- One read iteration of the assembly loop:
`audio_buffer += chunk` followed by the frame-extraction `while` loop,
incrementing `frames_processed` once per extracted frame. -/
def pushChunk (st : AsmState) (chunk : List Nat) : AsmState × List (List Nat) :=
  let r := extractFrames (st.buffer ++ chunk)
  (⟨r.2, st.frames_processed + r.1.length⟩, r.1)

/-- Feed a sequence of reads through the frame assembly loop, collecting
all extracted frames in order. -/
def feedAll : AsmState → List (List Nat) → AsmState × List (List Nat)
  | st, [] => (st, [])
  | st, c :: cs =>
    let r1 := pushChunk st c
    let r2 := feedAll r1.1 cs
    (r2.1, r1.2 ++ r2.2)

theorem frameSize_pos : 0 < frameSize := by norm_num [frameSize]

theorem extractGo_congr : ∀ (fuel fuel' : Nat) (buf : List Nat),
    buf.length ≤ fuel → buf.length ≤ fuel' →
    extractGo fuel buf = extractGo fuel' buf := by
  intro fuel
  induction fuel with
  | zero =>
    intro fuel' buf h h'
    have hb : buf = [] := List.length_eq_zero.mp (Nat.le_zero.mp h)
    subst hb
    cases fuel' with
    | zero => rfl
    | succ n =>
      simp [extractGo, frameSize]
  | succ n ih =>
    intro fuel' buf h h'
    cases fuel' with
    | zero =>
      have hb : buf = [] := List.length_eq_zero.mp (Nat.le_zero.mp h')
      subst hb
      simp [extractGo, frameSize]
    | succ m =>
      by_cases hc : frameSize ≤ buf.length
      · have hpos := frameSize_pos
        have hdrop : (buf.drop frameSize).length ≤ n := by
          simp only [List.length_drop]
          omega
        have hdrop' : (buf.drop frameSize).length ≤ m := by
          simp only [List.length_drop]
          omega
        simp only [extractGo, if_pos hc]
        rw [ih n (buf.drop frameSize) hdrop hdrop]
        rw [ih m (buf.drop frameSize) hdrop hdrop']
      · simp only [extractGo, if_neg hc]

theorem extractFrames_step (buf : List Nat) (h : frameSize ≤ buf.length) :
    extractFrames buf =
      (buf.take frameSize :: (extractFrames (buf.drop frameSize)).1,
       (extractFrames (buf.drop frameSize)).2) := by
  have hpos := frameSize_pos
  obtain ⟨n, hn⟩ : ∃ n, buf.length = n + 1 := ⟨buf.length - 1, by omega⟩
  unfold extractFrames
  rw [hn]
  simp only [extractGo, if_pos h]
  have hd : (buf.drop frameSize).length ≤ n := by
    simp only [List.length_drop]
    omega
  rw [extractGo_congr n (buf.drop frameSize).length (buf.drop frameSize) hd le_rfl]

theorem extractFrames_small (buf : List Nat) (h : ¬ frameSize ≤ buf.length) :
    extractFrames buf = ([], buf) := by
  unfold extractFrames
  cases hl : buf.length with
  | zero => rfl
  | succ n =>
    simp only [extractGo]
    rw [if_neg h]

/-- Concatenating the extracted frames with the remaining buffer recovers
the input buffer: no byte is dropped, duplicated or reordered. -/
theorem extract_join (buf : List Nat) :
    (extractFrames buf).1.flatten ++ (extractFrames buf).2 = buf := by
  by_cases h : frameSize ≤ buf.length
  · rw [extractFrames_step buf h]
    have ih := extract_join (buf.drop frameSize)
    simp only [List.flatten_cons, List.append_assoc]
    rw [ih]
    exact List.take_append_drop frameSize buf
  · rw [extractFrames_small buf h]
    simp
termination_by buf.length
decreasing_by
  simp only [List.length_drop]
  have hpos : 0 < frameSize := frameSize_pos
  omega

/-- Every extracted frame holds exactly `frameSize` bytes. -/
theorem extract_frames_len (buf : List Nat) :
    ∀ f ∈ (extractFrames buf).1, f.length = frameSize := by
  by_cases h : frameSize ≤ buf.length
  · rw [extractFrames_step buf h]
    intro f hf
    rcases List.mem_cons.mp hf with h1 | h2
    · subst h1
      simp only [List.length_take]
      omega
    · exact extract_frames_len (buf.drop frameSize) f h2
  · rw [extractFrames_small buf h]
    intro f hf
    simp at hf
termination_by buf.length
decreasing_by
  simp only [List.length_drop]
  have hpos : 0 < frameSize := frameSize_pos
  omega

/-- The number of extracted frames is `⌊buffer length / frameSize⌋`. -/
theorem extract_count (buf : List Nat) :
    (extractFrames buf).1.length = buf.length / frameSize := by
  have h2560 : frameSize = 2560 := rfl
  by_cases h : frameSize ≤ buf.length
  · rw [extractFrames_step buf h]
    have ih := extract_count (buf.drop frameSize)
    simp only [List.length_cons, ih, List.length_drop]
    rw [h2560] at h ⊢
    omega
  · rw [extractFrames_small buf h]
    show ([] : List (List Nat)).length = buf.length / frameSize
    simp only [List.length_nil]
    rw [h2560] at h ⊢
    omega
termination_by buf.length
decreasing_by
  simp only [List.length_drop]
  have hpos : 0 < frameSize := frameSize_pos
  omega

/-- The remaining buffer holds `buffer length mod frameSize` bytes. -/
theorem extract_rem (buf : List Nat) :
    (extractFrames buf).2.length = buf.length % frameSize := by
  have h2560 : frameSize = 2560 := rfl
  by_cases h : frameSize ≤ buf.length
  · rw [extractFrames_step buf h]
    have ih := extract_rem (buf.drop frameSize)
    simp only [ih, List.length_drop]
    rw [h2560] at h ⊢
    omega
  · rw [extractFrames_small buf h]
    show buf.length = buf.length % frameSize
    rw [h2560] at h ⊢
    omega
termination_by buf.length
decreasing_by
  simp only [List.length_drop]
  have hpos : 0 < frameSize := frameSize_pos
  omega

/-- Extraction is compositional across appends: extracting from `xs ++ ys`
first yields all frames of `xs`, then the frames of the remainder of `xs`
followed by `ys`. -/
theorem extract_append (xs ys : List Nat) :
    extractFrames (xs ++ ys) =
      ((extractFrames xs).1 ++ (extractFrames ((extractFrames xs).2 ++ ys)).1,
       (extractFrames ((extractFrames xs).2 ++ ys)).2) := by
  by_cases h : frameSize ≤ xs.length
  · have hxy : frameSize ≤ (xs ++ ys).length := by
      simp only [List.length_append]
      omega
    rw [extractFrames_step (xs ++ ys) hxy, extractFrames_step xs h]
    have htake : (xs ++ ys).take frameSize = xs.take frameSize :=
      List.take_append_of_le_length h
    have hdrop : (xs ++ ys).drop frameSize = xs.drop frameSize ++ ys :=
      List.drop_append_of_le_length h
    rw [htake, hdrop]
    have ih := extract_append (xs.drop frameSize) ys
    rw [ih]
    simp
  · rw [extractFrames_small xs h]
    simp
termination_by xs.length
decreasing_by
  simp only [List.length_drop]
  have hpos : 0 < frameSize := frameSize_pos
  omega

/-- Feeding chunks through the assembly loop from a buffer shorter than one
frame behaves exactly like extracting frames from the concatenated bytes. -/
theorem feedAll_flush : ∀ (cs : List (List Nat)) (b : List Nat) (n : Nat),
    b.length < frameSize →
    feedAll ⟨b, n⟩ cs =
      (⟨(extractFrames (b ++ cs.flatten)).2,
        n + (extractFrames (b ++ cs.flatten)).1.length⟩,
       (extractFrames (b ++ cs.flatten)).1) := by
  intro cs
  induction cs with
  | nil =>
    intro b n hb
    have h : extractFrames b = ([], b) := extractFrames_small b (by omega)
    simp [feedAll, h]
  | cons c cs ih =>
    intro b n hb
    simp only [feedAll, pushChunk]
    have hrem : (extractFrames (b ++ c)).2.length < frameSize := by
      rw [extract_rem]
      exact Nat.mod_lt _ frameSize_pos
    rw [ih (extractFrames (b ++ c)).2 (n + (extractFrames (b ++ c)).1.length) hrem]
    have hsplit := extract_append (b ++ c) cs.flatten
    simp only [List.flatten_cons, ← List.append_assoc]
    rw [hsplit]
    simp [Nat.add_assoc]

/-- Mapping every byte to a singleton chunk and flattening is the identity. -/
theorem flatten_singletons (l : List Nat) :
    (l.map (fun b => [b])).flatten = l := by
  induction l with
  | nil => rfl
  | cons a l ih => simp [ih]

/-- Claim C1: starting from an empty buffer, feeding any sequence of byte
chunks extracts exactly `⌊total bytes / 2560⌋` frames; each frame has
exactly 2560 bytes; the frames concatenated with the final buffer
reproduce the concatenated input stream (FIFO, nothing dropped or
duplicated); `frames_processed` equals the number of extracted frames
(incremented once per frame, never reset); and the trailing
`total mod 2560` bytes stay in the buffer, never emitted as a frame. -/
theorem C1_frame_assembly (chunks : List (List Nat)) :
    (feedAll ⟨[], 0⟩ chunks).2.length = chunks.flatten.length / frameSize ∧
    (∀ f ∈ (feedAll ⟨[], 0⟩ chunks).2, f.length = frameSize) ∧
    (feedAll ⟨[], 0⟩ chunks).2.flatten ++ (feedAll ⟨[], 0⟩ chunks).1.buffer =
      chunks.flatten ∧
    (feedAll ⟨[], 0⟩ chunks).1.frames_processed = (feedAll ⟨[], 0⟩ chunks).2.length ∧
    (feedAll ⟨[], 0⟩ chunks).1.buffer.length = chunks.flatten.length % frameSize := by
  have hf := feedAll_flush chunks [] 0 frameSize_pos
  simp only [List.nil_append] at hf
  rw [hf]
  exact ⟨extract_count _, extract_frames_len _, extract_join _, by simp, extract_rem _⟩

/-- Claim C7: frame assembly is invariant under re-chunking; feeding a byte
stream one byte at a time yields the same ordered frame sequence as feeding
it as a single chunk. -/
theorem C7_rechunking (bytes : List Nat) :
    (feedAll ⟨[], 0⟩ (bytes.map (fun b => [b]))).2 =
      (feedAll ⟨[], 0⟩ [bytes]).2 := by
  have h1 := feedAll_flush (bytes.map (fun b => [b])) [] 0 frameSize_pos
  have h2 := feedAll_flush [bytes] [] 0 frameSize_pos
  rw [h1, h2, flatten_singletons]
  simp

/-- Interpret two bytes as a little-endian signed 16-bit sample, as
`np.frombuffer(frame, dtype=np.int16)` does. -/
def toInt16 (lo hi : Nat) : ℤ :=
  if lo + 256 * hi < 32768 then (lo + 256 * hi : ℤ) else (lo + 256 * hi : ℤ) - 65536

/-- Decode a byte string into its little-endian int16 samples. -/
def decodeSamples : List Nat → List ℤ
  | lo :: hi :: rest => toInt16 lo hi :: decodeSamples rest
  | _ => []

/-- Normalization applied to each sample:
`.astype(np.float32) / 32768.0`, modelled exactly over `ℚ` (every value
`x / 32768` with `x` an int16 is exactly representable in float32). -/
def normalizeSample (v : ℤ) : ℚ := (v : ℚ) / 32768

/-- The sample decoder of both variants:
`np.frombuffer(frame, dtype=np.int16).astype(np.float32) / 32768.0`. -/
def decodeFrame (frame : List Nat) : List ℚ :=
  (decodeSamples frame).map normalizeSample

/-- Modelled from the spec: re-quantization of a normalized sample back to
a 16-bit integer, "multiplying by 32768 and rounding back to a 16-bit
integer" (spec §8 round-trip bound); no such inverse exists in the source. -/
def requantize (q : ℚ) : ℤ := round (q * 32768)

theorem decodeSamples_length : ∀ l : List Nat, (decodeSamples l).length = l.length / 2
  | [] => rfl
  | [_] => by simp [decodeSamples]
  | _ :: _ :: rest => by
    simp only [decodeSamples, List.length_cons, decodeSamples_length rest]
    omega

theorem toInt16_bounds (lo hi : Nat) (hlo : lo < 256) (hhi : hi < 256) :
    -32768 ≤ toInt16 lo hi ∧ toInt16 lo hi ≤ 32767 := by
  unfold toInt16
  split
  · constructor <;> omega
  · constructor <;> omega

theorem decodeSamples_get :
    ∀ (l : List Nat) (i : Nat) (hi : i < (decodeSamples l).length)
      (h1 : 2 * i < l.length) (h2 : 2 * i + 1 < l.length),
      (decodeSamples l)[i] = toInt16 l[2 * i] l[2 * i + 1]
  | lo :: hi :: rest, 0, _, _, _ => rfl
  | lo :: hi :: rest, i + 1, hhi, hh1, hh2 => by
    have hlen : i < (decodeSamples rest).length := by
      simpa [decodeSamples] using hhi
    have hr1 : 2 * i < rest.length := by
      simp only [List.length_cons] at hh1
      omega
    have hr2 : 2 * i + 1 < rest.length := by
      simp only [List.length_cons] at hh2
      omega
    have ih := decodeSamples_get rest i hlen hr1 hr2
    have e1 : 2 * (i + 1) = 2 * i + 1 + 1 := by omega
    simp only [e1, decodeSamples, List.getElem_cons_succ]
    exact ih

theorem normalizeSample_bounds (v : ℤ) (h1 : -32768 ≤ v) (h2 : v ≤ 32767) :
    -1 ≤ normalizeSample v ∧ normalizeSample v ≤ 1 := by
  unfold normalizeSample
  have hpos : (0 : ℚ) < 32768 := by norm_num
  constructor
  · rw [le_div_iff hpos]
    have : (-32768 : ℚ) ≤ (v : ℚ) := by exact_mod_cast h1
    linarith
  · rw [div_le_one hpos]
    have : (v : ℚ) ≤ 32767 := by exact_mod_cast h2
    linarith

theorem mem_decodeSamples_bounds :
    ∀ (l : List Nat), (∀ b ∈ l, b < 256) →
      ∀ v ∈ decodeSamples l, -32768 ≤ v ∧ v ≤ 32767
  | [], _, v, hv => by simp [decodeSamples] at hv
  | [_], _, v, hv => by simp [decodeSamples] at hv
  | lo :: hi :: rest, hb, v, hv => by
    simp only [decodeSamples, List.mem_cons] at hv
    rcases hv with h | h
    · subst h
      exact toInt16_bounds lo hi (hb lo (by simp)) (hb hi (by simp))
    · exact mem_decodeSamples_bounds rest (fun b hbb => hb b (by simp [hbb])) v h

/-- Claim C8: the sample decoder maps a 2560-byte frame to 1280 samples,
the `i`-th being the `i`-th little-endian int16 of the frame divided by
32768, and every decoded sample lies in `[-1, 1]`. -/
theorem C8_sample_decoder (frame : List Nat)
    (hlen : frame.length = 2560) (hb : ∀ b ∈ frame, b < 256) :
    (decodeFrame frame).length = 1280 ∧
    (∀ (i : Nat) (hi : i < (decodeFrame frame).length) (h1 : 2 * i < frame.length)
        (h2 : 2 * i + 1 < frame.length),
      (decodeFrame frame)[i] = (toInt16 frame[2 * i] frame[2 * i + 1] : ℚ) / 32768) ∧
    (∀ x ∈ decodeFrame frame, -1 ≤ x ∧ x ≤ 1) := by
  have hslen : (decodeSamples frame).length = 1280 := by
    rw [decodeSamples_length, hlen]
  refine ⟨?_, ?_, ?_⟩
  · rw [decodeFrame, List.length_map, hslen]
  · intro i hi h1 h2
    have hi' : i < (decodeSamples frame).length := by
      rw [decodeFrame, List.length_map] at hi
      exact hi
    simp only [decodeFrame, List.getElem_map]
    rw [decodeSamples_get frame i hi' h1 h2]
    rfl
  · intro x hx
    rw [decodeFrame] at hx
    obtain ⟨v, hv, hvx⟩ := List.mem_map.mp hx
    obtain ⟨hb1, hb2⟩ := mem_decodeSamples_bounds frame hb v hv
    rw [← hvx]
    exact normalizeSample_bounds v hb1 hb2

/-- Witness for C8 at the concrete all-zero 2560-byte frame. -/
theorem C8_sample_decoder_witness :
    (List.replicate 2560 0).length = 2560 ∧
    (∀ b ∈ List.replicate 2560 0, b < 256) ∧
    (decodeFrame (List.replicate 2560 0)).length = 1280 ∧
    (∀ x ∈ decodeFrame (List.replicate 2560 0), -1 ≤ x ∧ x ≤ 1) := by
  have hlen : (List.replicate 2560 (0 : Nat)).length = 2560 := by simp
  have hb : ∀ b ∈ List.replicate 2560 (0 : Nat), b < 256 := by
    intro b hbb
    rw [List.eq_of_mem_replicate hbb]
    omega
  have h := C8_sample_decoder (List.replicate 2560 0) hlen hb
  exact ⟨hlen, hb, h.1, h.2.2⟩

/-- Claim C9: decoding an int16 sample (divide by 32768) and re-quantizing
(multiply by 32768, round to integer) reproduces the original sample within
1 least-significant bit (here, exactly). -/
theorem C9_roundtrip (x : ℤ) (h1 : -32768 ≤ x) (h2 : x ≤ 32767) :
    |requantize (normalizeSample x) - x| ≤ 1 := by
  have hns : (32768 : ℚ) ≠ 0 := by norm_num
  have hq : normalizeSample x * 32768 = (x : ℚ) := by
    rw [normalizeSample, div_mul_cancel₀ _ hns]
  rw [requantize, hq, round_intCast, sub_self, abs_zero]
  omega

/-- Witness for C9 at the extreme sample `-32768` named by the spec. -/
theorem C9_roundtrip_witness :
    (-32768 ≤ (-32768 : ℤ)) ∧ ((-32768 : ℤ) ≤ 32767) ∧
    |requantize (normalizeSample (-32768)) - (-32768)| ≤ 1 :=
  ⟨by norm_num, by norm_num,
    C9_roundtrip (-32768) (by norm_num) (by norm_num)⟩

/-- The per-frame score loop of the server variant
(`for name, scores in prediction.items():` in `openwakeword_server.py`):
threading the rolling `max_score` through
`if score > max_score: max_score = score`, then
`if score > threshold:` emit the wakeword record, call `model.reset()`
and set `max_score = 0.0`. Returns the final `max_score` and the emitted
actions in order. -/
def serverScores (t : ℚ) : ℚ → List (String × ℚ) → ℚ × List Act
  | m, [] => (m, [])
  | m, p :: rest =>
    let m1 := if m < p.2 then p.2 else m
    if t < p.2 then
      let r := serverScores t 0 rest
      (r.1, Act.emitDetection p.1 p.2 :: Act.resetModel :: r.2)
    else
      serverScores t m1 rest

/-- `round(x, 3)` applied to the rolling maximum before it is reported. -/
def round3 (q : ℚ) : ℚ := (round (q * 1000) : ℚ) / 1000

/-- The telemetry check of the server variant
(`if frames_processed % 50 == 0:` print the debug record, reset
`max_score`), applied after a frame's scores were handled. -/
def serverTelemetry (fp : Nat) (m : ℚ) : ℚ × List Act :=
  if fp % 50 = 0 then (0, [Act.emitDebug fp (round3 m)]) else (m, [])

/-- The whole per-frame body of the server variant after a successful
scoring call, acting on `(frames_processed, max_score)`:
increment `frames_processed`, run the score loop, run the telemetry
check. -/
def serverFrame (t : ℚ) (st : Nat × ℚ) (ps : List (String × ℚ)) :
    (Nat × ℚ) × List Act :=
  let fp := st.1 + 1
  let r1 := serverScores t st.2 ps
  let r2 := serverTelemetry fp r1.1
  ((fp, r2.1), r1.2 ++ r2.2)

/-- The server variant's detection loop at frame granularity: one entry of
the list per scored frame (the score map returned by `model.predict`). -/
def serverRun (t : ℚ) : (Nat × ℚ) → List (List (String × ℚ)) → (Nat × ℚ) × List Act
  | st, [] => (st, [])
  | st, f :: rest =>
    let r1 := serverFrame t st f
    let r2 := serverRun t r1.1 rest
    (r2.1, r1.2 ++ r2.2)

/-- The per-score body of the detector variant
(`for model_name, score in prediction.items():` in
`openwakeword-detector.py`): an optional debug print when
`args.debug and score > 0.1`, then `if score >= args.threshold:` emit the
detection record and call `oww_model.reset()`. The detector variant keeps
no rolling maximum. -/
def detectorScoreStep (t : ℚ) (dbg : Bool) (p : String × ℚ) : List Act :=
  (if dbg ∧ (1 / 10 : ℚ) < p.2 then [Act.emitDebugScore p.1 p.2] else []) ++
  (if t ≤ p.2 then [Act.emitDetection p.1 p.2, Act.resetModel] else [])

/-- All actions the detector variant emits for one frame's score map. -/
def detectorFrameActs (t : ℚ) (dbg : Bool) (ps : List (String × ℚ)) : List Act :=
  (ps.map (detectorScoreStep t dbg)).flatten

/-- Claim C2: the detector variant emits a detection exactly when
`score >= threshold`, the server variant exactly when `score > threshold`;
at `score = threshold` the detector fires and the server does not. -/
theorem C2_threshold_comparison (t m : ℚ) (name : String) (s : ℚ) (dbg : Bool) :
    (Act.emitDetection name s ∈ detectorScoreStep t dbg (name, s) ↔ t ≤ s) ∧
    (Act.emitDetection name s ∈ (serverScores t m [(name, s)]).2 ↔ t < s) ∧
    Act.emitDetection name t ∈ detectorScoreStep t dbg (name, t) ∧
    Act.emitDetection name t ∉ (serverScores t m [(name, t)]).2 := by
  refine ⟨?_, ?_, ?_, ?_⟩
  · unfold detectorScoreStep
    split_ifs with h1 h2 <;> simp_all
  · unfold serverScores
    split_ifs with h1 <;> simp_all [serverScores]
  · unfold detectorScoreStep
    split_ifs with h1 <;> simp_all
  · unfold serverScores
    split_ifs with h1 <;> simp_all [serverScores]

/-- Claim C5, amended: when the variant's comparison fires, the server
emits the detection record carrying the detector name and score, then the
model reset, and continues its score loop with `max_score` cleared to `0`;
the detector likewise emits the detection record then the reset, but it
maintains no rolling maximum score that could be cleared. -/
theorem C5_detection_effects (t m : ℚ) (n : String) (s : ℚ) (dbg : Bool)
    (rest : List (String × ℚ)) :
    (t < s → serverScores t m ((n, s) :: rest) =
      ((serverScores t 0 rest).1,
        Act.emitDetection n s :: Act.resetModel :: (serverScores t 0 rest).2)) ∧
    (t ≤ s → detectorScoreStep t dbg (n, s) =
      (if dbg ∧ (1 / 10 : ℚ) < s then [Act.emitDebugScore n s] else []) ++
        [Act.emitDetection n s, Act.resetModel]) := by
  constructor
  · intro h
    simp [serverScores, h]
  · intro h
    simp [detectorScoreStep, h]

/-- Witness for C5 at threshold 1/2 and a score of 1. -/
theorem C5_detection_effects_witness :
    serverScores (1 / 2) 3 [("hey_jarvis", 1)] =
      ((serverScores (1 / 2) 0 []).1,
        Act.emitDetection "hey_jarvis" 1 :: Act.resetModel ::
          (serverScores (1 / 2) 0 []).2) ∧
    detectorScoreStep (1 / 2) false ("hey_jarvis", 1) =
      (if false ∧ (1 / 10 : ℚ) < 1 then [Act.emitDebugScore "hey_jarvis" 1] else []) ++
        [Act.emitDetection "hey_jarvis" 1, Act.resetModel] :=
  ⟨(C5_detection_effects (1 / 2) 3 "hey_jarvis" 1 false []).1 (by norm_num),
   (C5_detection_effects (1 / 2) 3 "hey_jarvis" 1 false []).2 (by norm_num)⟩

/-- Counterexample to claim C5 as stated: on a triggering score the
detector variant's complete per-score output is exactly the detection
record followed by the model reset; its loop state holds no
`rolling_max_score`, so nothing is cleared to 0 in that variant. -/
theorem C5_counterexample :
    detectorScoreStep (1 / 2) false ("hey_jarvis", 1) =
      [Act.emitDetection "hey_jarvis" 1, Act.resetModel] := by
  norm_num [detectorScoreStep]

/-- Loop state of the server variant: `audio_buffer`, `frames_processed`,
`max_score`, and the number of scoring calls made so far (the index into
the scoring oracle, standing for the state of `model.predict`). -/
structure SrvSt where
  buf : List Nat
  fp : Nat
  maxScore : ℚ
  calls : Nat
deriving DecidableEq, Repr

/-- The inner `while len(audio_buffer) >= frame_size:` loop of the server
variant. Each iteration slices one frame off the buffer, increments
`frames_processed`, and calls `model.predict`; if the call raises
(`oracle _ = none`), the `except` handler prints the error record and
`continue`s the outer loop, so the inner loop aborts with the remaining
buffer intact. -/
def serverInnerGo (t : ℚ) (oracle : Nat → Option (List (String × ℚ))) :
    Nat → SrvSt → SrvSt × List Act
  | 0, st => (st, [])
  | fuel + 1, st =>
    if frameSize ≤ st.buf.length then
      match oracle st.calls with
      | none =>
        (⟨st.buf.drop frameSize, st.fp + 1, st.maxScore, st.calls + 1⟩,
         [Act.emitError])
      | some ps =>
        let r1 := serverFrame t (st.fp, st.maxScore) ps
        let r2 := serverInnerGo t oracle fuel
          ⟨st.buf.drop frameSize, r1.1.1, r1.1.2, st.calls + 1⟩
        (r2.1, r1.2 ++ r2.2)
    else (st, [])

/-- Run the server variant's inner loop to completion (one unit of fuel
per buffered byte suffices). -/
def serverInner (t : ℚ) (oracle : Nat → Option (List (String × ℚ)))
    (st : SrvSt) : SrvSt × List Act :=
  serverInnerGo t oracle st.buf.length st

/-- The outer `while True:` loop of the server variant over a finite
sequence of stdin reads; a read of `b''` (here `[]`, or the end of the
read list) breaks the loop, after which the process just exits — no
record is printed. -/
def serverLoop (t : ℚ) (oracle : Nat → Option (List (String × ℚ))) :
    List (List Nat) → SrvSt → SrvSt × List Act
  | [], st => (st, [])
  | c :: rest, st =>
    if c = [] then (st, [])
    else
      let r1 := serverInner t oracle ⟨st.buf ++ c, st.fp, st.maxScore, st.calls⟩
      let r2 := serverLoop t oracle rest r1.1
      (r2.1, r1.2 ++ r2.2)

/-- Loop state of the detector variant: just the byte buffer and the
number of scoring calls made (the detector keeps no frame counter and no
rolling maximum). -/
structure DetSt where
  buf : List Nat
  calls : Nat
deriving DecidableEq, Repr

/-- The inner `while len(buffer) >= bytes_per_chunk:` loop of the detector
variant. On a raising scoring call the `except` handler prints the error
record only when `--debug` is set, then `continue`s the outer loop. -/
def detectorInnerGo (t : ℚ) (dbg : Bool)
    (oracle : Nat → Option (List (String × ℚ))) :
    Nat → DetSt → DetSt × List Act
  | 0, st => (st, [])
  | fuel + 1, st =>
    if frameSize ≤ st.buf.length then
      match oracle st.calls with
      | none =>
        (⟨st.buf.drop frameSize, st.calls + 1⟩,
         if dbg then [Act.emitError] else [])
      | some ps =>
        let r := detectorInnerGo t dbg oracle fuel
          ⟨st.buf.drop frameSize, st.calls + 1⟩
        (r.1, detectorFrameActs t dbg ps ++ r.2)
    else (st, [])

/-- Run the detector variant's inner loop to completion. -/
def detectorInner (t : ℚ) (dbg : Bool)
    (oracle : Nat → Option (List (String × ℚ))) (st : DetSt) : DetSt × List Act :=
  detectorInnerGo t dbg oracle st.buf.length st

/-- The outer `while True:` loop of the detector variant; on end of
stream (`[]` read or exhausted read list) it breaks and prints the
`{"status": "stopped"}` record. -/
def detectorLoop (t : ℚ) (dbg : Bool)
    (oracle : Nat → Option (List (String × ℚ))) :
    List (List Nat) → DetSt → DetSt × List Act
  | [], st => (st, [Act.emitStopped])
  | c :: rest, st =>
    if c = [] then (st, [Act.emitStopped])
    else
      let r1 := detectorInner t dbg oracle ⟨st.buf ++ c, st.calls⟩
      let r2 := detectorLoop t dbg oracle rest r1.1
      (r2.1, r1.2 ++ r2.2)

theorem serverInnerGo_small (t : ℚ) (oracle : Nat → Option (List (String × ℚ)))
    (st : SrvSt) (h : ¬ frameSize ≤ st.buf.length) :
    ∀ fuel, serverInnerGo t oracle fuel st = (st, []) := by
  intro fuel
  cases fuel with
  | zero => rfl
  | succ n =>
    simp only [serverInnerGo]
    rw [if_neg h]

theorem detectorInnerGo_small (t : ℚ) (dbg : Bool)
    (oracle : Nat → Option (List (String × ℚ)))
    (st : DetSt) (h : ¬ frameSize ≤ st.buf.length) :
    ∀ fuel, detectorInnerGo t dbg oracle fuel st = (st, []) := by
  intro fuel
  cases fuel with
  | zero => rfl
  | succ n =>
    simp only [detectorInnerGo]
    rw [if_neg h]

/-- A raising scoring call aborts the server's inner loop after exactly one
frame: the error record is emitted, `frames_processed` and the call counter
advance by one, and the rest of the buffer — including any complete frames
it still holds — is left untouched until the next read. -/
theorem serverInner_err (t : ℚ) (oracle : Nat → Option (List (String × ℚ)))
    (st : SrvSt) (h : frameSize ≤ st.buf.length) (hor : oracle st.calls = none) :
    serverInner t oracle st =
      (⟨st.buf.drop frameSize, st.fp + 1, st.maxScore, st.calls + 1⟩,
       [Act.emitError]) := by
  have hp := frameSize_pos
  obtain ⟨k, hk⟩ : ∃ k, st.buf.length = k + 1 := ⟨st.buf.length - 1, by omega⟩
  unfold serverInner
  rw [hk]
  simp only [serverInnerGo]
  rw [if_pos h, hor]

/-- Detector analogue of `serverInner_err`. -/
theorem detectorInner_err (t : ℚ) (dbg : Bool)
    (oracle : Nat → Option (List (String × ℚ)))
    (st : DetSt) (h : frameSize ≤ st.buf.length) (hor : oracle st.calls = none) :
    detectorInner t dbg oracle st =
      (⟨st.buf.drop frameSize, st.calls + 1⟩,
       if dbg then [Act.emitError] else []) := by
  have hp := frameSize_pos
  obtain ⟨k, hk⟩ : ∃ k, st.buf.length = k + 1 := ⟨st.buf.length - 1, by omega⟩
  unfold detectorInner
  rw [hk]
  simp only [detectorInnerGo]
  rw [if_pos h, hor]

/-- Claim C10: in both variants, when the scoring call raises while the
buffer still holds at least one more complete frame, the handler returns
to the blocking read without scoring it (exactly one scoring call is
consumed), and when the following read signals end-of-stream the loop
exits with that complete frame still unprocessed in the buffer. -/
theorem C10_error_defers_buffered_frames (t : ℚ)
    (oracle : Nat → Option (List (String × ℚ))) (dbg : Bool)
    (b c : List Nat) (fp : Nat) (m : ℚ) (calls : Nat)
    (hor : oracle calls = none) (hc : c ≠ [])
    (hlen : 2 * frameSize ≤ (b ++ c).length) :
    serverLoop t oracle [c, []] ⟨b, fp, m, calls⟩ =
      (⟨(b ++ c).drop frameSize, fp + 1, m, calls + 1⟩, [Act.emitError]) ∧
    detectorLoop t dbg oracle [c, []] ⟨b, calls⟩ =
      (⟨(b ++ c).drop frameSize, calls + 1⟩,
        (if dbg then [Act.emitError] else []) ++ [Act.emitStopped]) ∧
    frameSize ≤ ((b ++ c).drop frameSize).length := by
  have hfs : frameSize ≤ (b ++ c).length := by
    have := frameSize_pos
    omega
  have hrem : frameSize ≤ ((b ++ c).drop frameSize).length := by
    simp only [List.length_drop]
    omega
  refine ⟨?_, ?_, hrem⟩
  · simp only [serverLoop]
    rw [if_neg hc]
    rw [serverInner_err t oracle ⟨b ++ c, fp, m, calls⟩ hfs hor]
    simp [serverLoop]
  · simp only [detectorLoop]
    rw [if_neg hc]
    rw [detectorInner_err t dbg oracle ⟨b ++ c, calls⟩ hfs hor]
    simp [detectorLoop]

/-- Witness for C10: an empty prior buffer, a single 5120-byte read (two
complete frames) whose first frame's scoring call raises, followed by
end-of-stream. -/
theorem C10_error_defers_buffered_frames_witness :
    ((fun _ : Nat => (none : Option (List (String × ℚ)))) 0 = none) ∧
    (List.replicate 5120 0 ≠ ([] : List Nat)) ∧
    (2 * frameSize ≤ (([] : List Nat) ++ List.replicate 5120 0).length) ∧
    (serverLoop 1 (fun _ => none) [List.replicate 5120 0, []] ⟨[], 0, 0, 0⟩ =
      (⟨(([] : List Nat) ++ List.replicate 5120 0).drop frameSize, 0 + 1, 0, 0 + 1⟩,
        [Act.emitError]) ∧
     detectorLoop 1 false (fun _ => none) [List.replicate 5120 0, []] ⟨[], 0⟩ =
      (⟨(([] : List Nat) ++ List.replicate 5120 0).drop frameSize, 0 + 1⟩,
        (if false then [Act.emitError] else []) ++ [Act.emitStopped]) ∧
     frameSize ≤ ((([] : List Nat) ++ List.replicate 5120 0).drop frameSize).length) :=
  have hne : List.replicate 5120 (0 : Nat) ≠ [] := by
    intro h
    have h2 := congrArg List.length h
    rw [List.length_replicate] at h2
    exact absurd h2 (by norm_num)
  have hlen : 2 * frameSize ≤ (([] : List Nat) ++ List.replicate 5120 0).length := by
    rw [List.nil_append, List.length_replicate]
    norm_num [frameSize]
  ⟨rfl, hne, hlen,
    C10_error_defers_buffered_frames 1 (fun _ => none) false [] (List.replicate 5120 0)
      0 0 0 rfl hne hlen⟩

theorem serverScores_no_stopped (t : ℚ) :
    ∀ (ps : List (String × ℚ)) (m : ℚ), Act.emitStopped ∉ (serverScores t m ps).2 := by
  intro ps
  induction ps with
  | nil => intro m; simp [serverScores]
  | cons p rest ih =>
    intro m
    simp only [serverScores]
    split_ifs with h h2
    · intro hmem
      simp only [List.mem_cons] at hmem
      rcases hmem with h1 | h1 | h1
      · exact absurd h1 (by simp)
      · exact absurd h1 (by simp)
      · exact ih 0 h1
    · exact ih _
    · exact ih _

theorem serverTelemetry_no_stopped (fp : Nat) (m : ℚ) :
    Act.emitStopped ∉ (serverTelemetry fp m).2 := by
  unfold serverTelemetry
  split_ifs <;> simp

theorem serverFrame_no_stopped (t : ℚ) (st : Nat × ℚ) (ps : List (String × ℚ)) :
    Act.emitStopped ∉ (serverFrame t st ps).2 := by
  simp only [serverFrame]
  intro h
  rcases List.mem_append.mp h with h1 | h1
  · exact serverScores_no_stopped t ps st.2 h1
  · exact serverTelemetry_no_stopped _ _ h1

theorem serverInnerGo_no_stopped (t : ℚ) (oracle : Nat → Option (List (String × ℚ))) :
    ∀ (fuel : Nat) (st : SrvSt), Act.emitStopped ∉ (serverInnerGo t oracle fuel st).2 := by
  intro fuel
  induction fuel with
  | zero => intro st; simp [serverInnerGo]
  | succ n ih =>
    intro st
    simp only [serverInnerGo]
    split_ifs with h
    · cases horc : oracle st.calls with
      | none => simp
      | some ps =>
        intro hmem
        rcases List.mem_append.mp hmem with h1 | h1
        · exact serverFrame_no_stopped _ _ _ h1
        · exact ih _ h1
    · simp

theorem serverLoop_no_stopped (t : ℚ) (oracle : Nat → Option (List (String × ℚ))) :
    ∀ (reads : List (List Nat)) (st : SrvSt),
      Act.emitStopped ∉ (serverLoop t oracle reads st).2 := by
  intro reads
  induction reads with
  | nil => intro st; simp [serverLoop]
  | cons c rest ih =>
    intro st
    simp only [serverLoop, serverInner]
    split_ifs with h
    · simp
    · intro hmem
      rcases List.mem_append.mp hmem with h1 | h1
      · exact serverInnerGo_no_stopped t oracle _ _ h1
      · exact ih _ h1

theorem detectorLoop_last_stopped (t : ℚ) (dbg : Bool)
    (oracle : Nat → Option (List (String × ℚ))) :
    ∀ (reads : List (List Nat)) (st : DetSt),
      (detectorLoop t dbg oracle reads st).2.getLast? = some Act.emitStopped := by
  intro reads
  induction reads with
  | nil => intro st; rfl
  | cons c rest ih =>
    intro st
    simp only [detectorLoop]
    split_ifs with h
    · rfl
    · have hne :
          (detectorLoop t dbg oracle rest
            (detectorInner t dbg oracle ⟨st.buf ++ c, st.calls⟩).1).2 ≠ [] := by
        intro hh
        have h2 := ih (detectorInner t dbg oracle ⟨st.buf ++ c, st.calls⟩).1
        rw [hh] at h2
        simp at h2
      rw [List.getLast?_append_of_ne_nil _ hne]
      exact ih _

/-- Claim C3, amended: on end-of-stream the detector variant's event
trace always ends with the `{"status":"stopped"}` record; the server
variant terminates cleanly too, but never emits any stopped record. -/
theorem C3_stop_record (t : ℚ) (dbg : Bool)
    (oracle : Nat → Option (List (String × ℚ)))
    (reads : List (List Nat)) (dst : DetSt) (sst : SrvSt) :
    (detectorLoop t dbg oracle reads dst).2.getLast? = some Act.emitStopped ∧
    Act.emitStopped ∉ (serverLoop t oracle reads sst).2 :=
  ⟨detectorLoop_last_stopped t dbg oracle reads dst,
   serverLoop_no_stopped t oracle reads sst⟩

/-- Counterexample to claim C3 as stated: the server variant, fed a
zero-byte read (end of stream), terminates with an empty event trace —
no `StoppedEvent` record is ever emitted by that variant. -/
theorem C3_counterexample :
    serverLoop 1 (fun _ => some []) [[]] ⟨[], 0, 0, 0⟩ = (⟨[], 0, 0, 0⟩, []) := rfl

theorem serverInnerGo_nil (t : ℚ) (oracle : Nat → Option (List (String × ℚ)))
    (fuel : Nat) (fp : Nat) (m : ℚ) (calls : Nat) :
    serverInnerGo t oracle fuel ⟨[], fp, m, calls⟩ = (⟨[], fp, m, calls⟩, []) :=
  serverInnerGo_small t oracle ⟨[], fp, m, calls⟩ (by norm_num [frameSize]) fuel

theorem detectorInnerGo_nil (t : ℚ) (dbg : Bool)
    (oracle : Nat → Option (List (String × ℚ))) (fuel : Nat) (calls : Nat) :
    detectorInnerGo t dbg oracle fuel ⟨[], calls⟩ = (⟨[], calls⟩, []) :=
  detectorInnerGo_small t dbg oracle ⟨[], calls⟩ (by norm_num [frameSize]) fuel

/-- One aligned read (exactly one frame in the buffer) through the
server's inner loop. -/
theorem serverInner_single (t : ℚ) (oracle : Nat → Option (List (String × ℚ)))
    (st : SrvSt) (h : st.buf.length = frameSize) :
    serverInner t oracle st =
      match oracle st.calls with
      | none => (⟨[], st.fp + 1, st.maxScore, st.calls + 1⟩, [Act.emitError])
      | some ps =>
        (⟨[], st.fp + 1, (serverFrame t (st.fp, st.maxScore) ps).1.2, st.calls + 1⟩,
         (serverFrame t (st.fp, st.maxScore) ps).2) := by
  have hp := frameSize_pos
  have hcond : frameSize ≤ st.buf.length := le_of_eq h.symm
  have hd : st.buf.drop frameSize = [] := List.drop_eq_nil_of_le (le_of_eq h)
  obtain ⟨k, hk⟩ : ∃ k, st.buf.length = k + 1 := ⟨st.buf.length - 1, by omega⟩
  unfold serverInner
  rw [hk]
  simp only [serverInnerGo]
  rw [if_pos hcond, hd]
  cases horc : oracle st.calls with
  | none => rfl
  | some ps =>
    simp only [serverInnerGo_nil, List.append_nil]
    rfl

/-- The actions one scored (or failing) frame produces in the detector
variant. -/
def detFrameOut (t : ℚ) (dbg : Bool) : Option (List (String × ℚ)) → List Act
  | none => if dbg then [Act.emitError] else []
  | some ps => detectorFrameActs t dbg ps

/-- One aligned read through the detector's inner loop. -/
theorem detectorInner_single (t : ℚ) (dbg : Bool)
    (oracle : Nat → Option (List (String × ℚ)))
    (st : DetSt) (h : st.buf.length = frameSize) :
    detectorInner t dbg oracle st =
      (⟨[], st.calls + 1⟩, detFrameOut t dbg (oracle st.calls)) := by
  have hp := frameSize_pos
  have hcond : frameSize ≤ st.buf.length := le_of_eq h.symm
  have hd : st.buf.drop frameSize = [] := List.drop_eq_nil_of_le (le_of_eq h)
  obtain ⟨k, hk⟩ : ∃ k, st.buf.length = k + 1 := ⟨st.buf.length - 1, by omega⟩
  unfold detectorInner
  rw [hk]
  simp only [detectorInnerGo]
  rw [if_pos hcond, hd]
  cases horc : oracle st.calls with
  | none => rfl
  | some ps =>
    simp only [detectorInnerGo_nil, List.append_nil]
    rfl

/-- The concatenated per-frame outputs of the detector variant for `n`
consecutive scoring calls starting at call index `calls`. -/
def tracesFrom (t : ℚ) (dbg : Bool) (oracle : Nat → Option (List (String × ℚ))) :
    Nat → Nat → List Act
  | _, 0 => []
  | calls, n + 1 =>
    detFrameOut t dbg (oracle calls) ++ tracesFrom t dbg oracle (calls + 1) n

/-- With frame-aligned reads the detector loop scores every frame in
order and appends the stopped record. -/
theorem detectorLoop_aligned (t : ℚ) (dbg : Bool)
    (oracle : Nat → Option (List (String × ℚ))) :
    ∀ (reads : List (List Nat)) (calls : Nat),
      (∀ c ∈ reads, c.length = frameSize) →
      detectorLoop t dbg oracle reads ⟨[], calls⟩ =
        (⟨[], calls + reads.length⟩,
         tracesFrom t dbg oracle calls reads.length ++ [Act.emitStopped]) := by
  intro reads
  induction reads with
  | nil =>
    intro calls h
    simp [detectorLoop, tracesFrom]
  | cons c rest ih =>
    intro calls h
    have hclen : c.length = frameSize := h c (by simp)
    have hcne : c ≠ [] := by
      intro hh
      rw [hh] at hclen
      norm_num [frameSize] at hclen
    simp only [detectorLoop]
    rw [if_neg hcne]
    rw [detectorInner_single t dbg oracle ⟨[] ++ c, calls⟩ (by simpa using hclen)]
    dsimp only
    rw [ih (calls + 1) (fun c2 hc2 => h c2 (List.mem_cons_of_mem c hc2))]
    simp only [List.length_cons, tracesFrom, List.append_assoc]
    have harith : calls + 1 + rest.length = calls + (rest.length + 1) := by omega
    rw [harith]

/-- With frame-aligned reads the server loop consumes its whole input:
the final buffer is empty and `frames_processed` and the call counter
advance by one per read, whether or not individual scoring calls raise. -/
theorem serverLoop_aligned (t : ℚ) (oracle : Nat → Option (List (String × ℚ))) :
    ∀ (reads : List (List Nat)) (fp : Nat) (m : ℚ) (calls : Nat),
      (∀ c ∈ reads, c.length = frameSize) →
      ∃ m2, (serverLoop t oracle reads ⟨[], fp, m, calls⟩).1 =
        ⟨[], fp + reads.length, m2, calls + reads.length⟩ := by
  intro reads
  induction reads with
  | nil =>
    intro fp m calls h
    exact ⟨m, by simp [serverLoop]⟩
  | cons c rest ih =>
    intro fp m calls h
    have hclen : c.length = frameSize := h c (by simp)
    have hcne : c ≠ [] := by
      intro hh
      rw [hh] at hclen
      norm_num [frameSize] at hclen
    simp only [serverLoop]
    rw [if_neg hcne]
    rw [serverInner_single t oracle ⟨[] ++ c, fp, m, calls⟩ (by simpa using hclen)]
    dsimp only
    cases horc : oracle calls with
    | none =>
      obtain ⟨m2, hm2⟩ := ih (fp + 1) m (calls + 1)
        (fun c2 hc2 => h c2 (List.mem_cons_of_mem c hc2))
      refine ⟨m2, ?_⟩
      rw [hm2]
      simp only [SrvSt.mk.injEq, List.length_cons]
      exact ⟨trivial, by omega, trivial, by omega⟩
    | some ps =>
      obtain ⟨m2, hm2⟩ := ih (fp + 1) ((serverFrame t (fp, m) ps).1.2) (calls + 1)
        (fun c2 hc2 => h c2 (List.mem_cons_of_mem c hc2))
      refine ⟨m2, ?_⟩
      rw [hm2]
      simp only [SrvSt.mk.injEq, List.length_cons]
      exact ⟨trivial, by omega, trivial, by omega⟩

/-- With frame-aligned reads, a raising scoring call makes the server loop
emit the error record. -/
theorem serverLoop_err (t : ℚ) (oracle : Nat → Option (List (String × ℚ))) :
    ∀ (reads : List (List Nat)) (fp : Nat) (m : ℚ) (calls j : Nat),
      (∀ c ∈ reads, c.length = frameSize) → j < reads.length →
      oracle (calls + j) = none →
      Act.emitError ∈ (serverLoop t oracle reads ⟨[], fp, m, calls⟩).2 := by
  intro reads
  induction reads with
  | nil =>
    intro fp m calls j h hj hor
    simp at hj
  | cons c rest ih =>
    intro fp m calls j h hj hor
    have hclen : c.length = frameSize := h c (by simp)
    have hcne : c ≠ [] := by
      intro hh
      rw [hh] at hclen
      norm_num [frameSize] at hclen
    simp only [serverLoop]
    rw [if_neg hcne]
    rw [serverInner_single t oracle ⟨[] ++ c, fp, m, calls⟩ (by simpa using hclen)]
    dsimp only
    cases j with
    | zero =>
      rw [Nat.add_zero] at hor
      rw [hor]
      simp
    | succ j2 =>
      cases horc : oracle calls with
      | none => simp
      | some ps =>
        have hmem := ih (fp + 1) ((serverFrame t (fp, m) ps).1.2) (calls + 1) j2
          (fun c2 hc2 => h c2 (List.mem_cons_of_mem c hc2))
          (by simp only [List.length_cons] at hj; omega)
          (by rw [show calls + 1 + j2 = calls + (j2 + 1) from by omega]; exact hor)
        exact List.mem_append_right _ hmem

/-- When debug mode is on, a raising call within an aligned window puts
the error record into the detector's per-frame output. -/
theorem tracesFrom_err (t : ℚ) (oracle : Nat → Option (List (String × ℚ))) :
    ∀ (n calls j : Nat), j < n → oracle (calls + j) = none →
      Act.emitError ∈ tracesFrom t true oracle calls n := by
  intro n
  induction n with
  | zero =>
    intro calls j hj hor
    simp at hj
  | succ n2 ih =>
    intro calls j hj hor
    simp only [tracesFrom]
    cases j with
    | zero =>
      rw [Nat.add_zero] at hor
      rw [hor]
      simp [detFrameOut]
    | succ j2 =>
      have hmem := ih (calls + 1) j2 (by omega)
        (by rw [show calls + 1 + j2 = calls + (j2 + 1) from by omega]; exact hor)
      exact List.mem_append_right _ hmem

/-- Claim C4, amended: a scoring call that raises on one frame is caught
at the loop boundary in both variants and the loop keeps running — with
frame-aligned reads every remaining frame is still scored (the counters
reach their full values). The server variant emits an `ErrorEvent` for the
failing frame; the detector variant does so only when `--debug` is set. -/
theorem C4_frame_error_recovery (t : ℚ)
    (oracle : Nat → Option (List (String × ℚ))) (dbg : Bool)
    (reads : List (List Nat)) (fp : Nat) (m : ℚ) (calls j : Nat)
    (ha : ∀ c ∈ reads, c.length = frameSize) (hj : j < reads.length)
    (hor : oracle (calls + j) = none) :
    (∃ m2, (serverLoop t oracle reads ⟨[], fp, m, calls⟩).1 =
        ⟨[], fp + reads.length, m2, calls + reads.length⟩) ∧
    Act.emitError ∈ (serverLoop t oracle reads ⟨[], fp, m, calls⟩).2 ∧
    (detectorLoop t dbg oracle reads ⟨[], calls⟩).1 = ⟨[], calls + reads.length⟩ ∧
    (dbg = true → Act.emitError ∈ (detectorLoop t dbg oracle reads ⟨[], calls⟩).2) := by
  refine ⟨serverLoop_aligned t oracle reads fp m calls ha,
          serverLoop_err t oracle reads fp m calls j ha hj hor, ?_, ?_⟩
  · rw [detectorLoop_aligned t dbg oracle reads calls ha]
  · intro hdbg
    subst hdbg
    rw [detectorLoop_aligned t true oracle reads calls ha]
    exact List.mem_append_left _ (tracesFrom_err t oracle reads.length calls j hj hor)

/-- Witness for C4: a single one-frame read whose scoring call raises,
with debug enabled in the detector. -/
theorem C4_frame_error_recovery_witness :
    (∀ c ∈ [List.replicate frameSize (0 : Nat)], c.length = frameSize) ∧
    (0 < 1) ∧
    ((fun _ : Nat => (none : Option (List (String × ℚ)))) (0 + 0) = none) ∧
    (∃ m2, (serverLoop 1 (fun _ => none) [List.replicate frameSize 0]
        ⟨[], 0, 0, 0⟩).1 = ⟨[], 0 + 1, m2, 0 + 1⟩) ∧
    Act.emitError ∈ (serverLoop 1 (fun _ => none) [List.replicate frameSize 0]
        ⟨[], 0, 0, 0⟩).2 ∧
    (detectorLoop 1 true (fun _ => none) [List.replicate frameSize 0]
        ⟨[], 0⟩).1 = ⟨[], 0 + 1⟩ ∧
    (true = true → Act.emitError ∈ (detectorLoop 1 true (fun _ => none)
        [List.replicate frameSize 0] ⟨[], 0⟩).2) := by
  have ha : ∀ c ∈ [List.replicate frameSize (0 : Nat)], c.length = frameSize := by
    intro c hc
    simp only [List.mem_singleton] at hc
    rw [hc, List.length_replicate]
  have h := C4_frame_error_recovery 1 (fun _ => none) true
    [List.replicate frameSize 0] 0 0 0 0 ha (by rw [List.length_singleton]; norm_num) rfl
  exact ⟨ha, by norm_num, rfl, h.1, h.2.1, h.2.2.1, h.2.2.2⟩

/-- Counterexample to claim C4 as stated: in the detector variant with
debug off (the default), a frame whose scoring call raises produces no
`ErrorEvent` at all — the whole trace is just the stopped record. -/
theorem C4_counterexample :
    detectorLoop 1 false (fun _ => none) [List.replicate frameSize 0] ⟨[], 0⟩ =
      (⟨[], 0 + 1⟩, [Act.emitStopped]) := by
  have ha : ∀ c ∈ [List.replicate frameSize (0 : Nat)], c.length = frameSize := by
    intro c hc
    simp only [List.mem_singleton] at hc
    rw [hc, List.length_replicate]
  rw [detectorLoop_aligned 1 false (fun _ => none) [List.replicate frameSize 0] 0 ha]
  have h1 : [List.replicate frameSize (0 : Nat)].length = 0 + 1 := rfl
  rw [h1]
  simp [tracesFrom, detFrameOut]

/-- The fold `if score > max: max = score` over one frame's score map,
written with `max`. -/
def pairsMax (m : ℚ) (ps : List (String × ℚ)) : ℚ :=
  ps.foldl (fun a p => max a p.2) m

/-- The rolling maximum accumulated over a sequence of frames. -/
def runMax (m : ℚ) (frames : List (List (String × ℚ))) : ℚ :=
  frames.foldl pairsMax m

theorem pairsMax_cons (m : ℚ) (p : String × ℚ) (ps : List (String × ℚ)) :
    pairsMax m (p :: ps) = pairsMax (max m p.2) ps := rfl

theorem runMax_cons (m : ℚ) (f : List (String × ℚ))
    (frames : List (List (String × ℚ))) :
    runMax m (f :: frames) = runMax (pairsMax m f) frames := rfl

theorem runMax_append (m : ℚ) (a b : List (List (String × ℚ))) :
    runMax m (a ++ b) = runMax (runMax m a) b := by
  simp [runMax, List.foldl_append]

theorem le_pairsMax : ∀ (ps : List (String × ℚ)) (m : ℚ), m ≤ pairsMax m ps := by
  intro ps
  induction ps with
  | nil => intro m; simp [pairsMax]
  | cons p rest ih =>
    intro m
    rw [pairsMax_cons]
    exact le_trans (le_max_left m p.2) (ih (max m p.2))

theorem pairsMax_le_of_mem : ∀ (ps : List (String × ℚ)) (m : ℚ) (p : String × ℚ),
    p ∈ ps → p.2 ≤ pairsMax m ps := by
  intro ps
  induction ps with
  | nil =>
    intro m p hp
    simp at hp
  | cons q rest ih =>
    intro m p hp
    rw [pairsMax_cons]
    rcases List.mem_cons.mp hp with h | h
    · rw [h]
      exact le_trans (le_max_right m q.2) (le_pairsMax rest (max m q.2))
    · exact ih (max m q.2) p h

theorem pairsMax_cases : ∀ (ps : List (String × ℚ)) (m : ℚ),
    pairsMax m ps = m ∨ ∃ p ∈ ps, pairsMax m ps = p.2 := by
  intro ps
  induction ps with
  | nil => intro m; left; rfl
  | cons q rest ih =>
    intro m
    rw [pairsMax_cons]
    rcases ih (max m q.2) with h | ⟨p, hp, hval⟩
    · rcases max_choice m q.2 with hm | hm
      · left
        rw [h, hm]
      · right
        exact ⟨q, by simp, by rw [h, hm]⟩
    · right
      exact ⟨p, List.mem_cons_of_mem q hp, hval⟩

theorem le_runMax : ∀ (frames : List (List (String × ℚ))) (m : ℚ),
    m ≤ runMax m frames := by
  intro frames
  induction frames with
  | nil => intro m; simp [runMax]
  | cons f rest ih =>
    intro m
    rw [runMax_cons]
    exact le_trans (le_pairsMax f m) (ih (pairsMax m f))

theorem runMax_le_of_mem : ∀ (frames : List (List (String × ℚ))) (m : ℚ)
    (f : List (String × ℚ)) (p : String × ℚ),
    f ∈ frames → p ∈ f → p.2 ≤ runMax m frames := by
  intro frames
  induction frames with
  | nil =>
    intro m f p hf hp
    simp at hf
  | cons g rest ih =>
    intro m f p hf hp
    rw [runMax_cons]
    rcases List.mem_cons.mp hf with h | h
    · rw [h] at hp
      exact le_trans (pairsMax_le_of_mem g m p hp) (le_runMax rest (pairsMax m g))
    · exact ih (pairsMax m g) f p h hp

theorem runMax_cases : ∀ (frames : List (List (String × ℚ))) (m : ℚ),
    runMax m frames = m ∨ ∃ f ∈ frames, ∃ p ∈ f, runMax m frames = p.2 := by
  intro frames
  induction frames with
  | nil => intro m; left; rfl
  | cons g rest ih =>
    intro m
    rw [runMax_cons]
    rcases ih (pairsMax m g) with h | ⟨f, hf, p, hp, hval⟩
    · rcases pairsMax_cases g m with h2 | ⟨p, hp, hval⟩
      · left
        rw [h, h2]
      · right
        exact ⟨g, by simp, p, hp, by rw [h, hval]⟩
    · right
      exact ⟨f, List.mem_cons_of_mem g hf, p, hp, hval⟩

/-- A frame whose scores all stay at or below the threshold emits nothing
and just folds the rolling maximum. -/
theorem serverScores_no_det (t : ℚ) :
    ∀ (ps : List (String × ℚ)) (m : ℚ), (∀ p ∈ ps, ¬ t < p.2) →
      serverScores t m ps = (pairsMax m ps, []) := by
  intro ps
  induction ps with
  | nil =>
    intro m h
    rfl
  | cons p rest ih =>
    intro m h
    have hp : ¬ t < p.2 := h p (by simp)
    simp only [serverScores]
    rw [if_neg hp]
    have hmax : (if m < p.2 then p.2 else m) = max m p.2 := by
      rcases lt_or_ge m p.2 with h1 | h1
      · rw [if_pos h1, max_eq_right (le_of_lt h1)]
      · rw [if_neg (not_lt.mpr h1), max_eq_left h1]
    rw [hmax]
    rw [ih (max m p.2) (fun q hq => h q (List.mem_cons_of_mem p hq))]
    rw [pairsMax_cons]

/-- A window of frames containing no telemetry boundary and no score above
the threshold emits nothing and accumulates the rolling maximum. -/
theorem serverRun_no_tel (t : ℚ) :
    ∀ (frames : List (List (String × ℚ))) (c : Nat) (m : ℚ),
      (∀ f ∈ frames, ∀ p ∈ f, ¬ t < p.2) →
      (∀ i, i < frames.length → ¬ (c + i + 1) % 50 = 0) →
      serverRun t (c, m) frames = ((c + frames.length, runMax m frames), []) := by
  intro frames
  induction frames with
  | nil =>
    intro c m h1 h2
    simp [serverRun, runMax]
  | cons f rest ih =>
    intro c m h1 h2
    simp only [serverRun, serverFrame]
    rw [serverScores_no_det t f m (h1 f (by simp))]
    have hb : ¬ (c + 1) % 50 = 0 := by
      have := h2 0 (by simp)
      simpa using this
    simp only [serverTelemetry]
    rw [if_neg hb]
    rw [ih (c + 1) (pairsMax m f) (fun g hg => h1 g (List.mem_cons_of_mem f hg))
        (fun i hi => by
          have h3 := h2 (i + 1) (by simp only [List.length_cons]; omega)
          rw [show c + 1 + i + 1 = c + (i + 1) + 1 from by omega]
          exact h3)]
    rw [runMax_cons]
    simp only [Prod.mk.injEq, List.length_cons, List.append_nil, List.nil_append]
    exact ⟨⟨by omega, trivial⟩, trivial⟩

theorem serverRun_append (t : ℚ) :
    ∀ (a b : List (List (String × ℚ))) (st : Nat × ℚ),
      serverRun t st (a ++ b) =
        ((serverRun t (serverRun t st a).1 b).1,
         (serverRun t st a).2 ++ (serverRun t (serverRun t st a).1 b).2) := by
  intro a
  induction a with
  | nil =>
    intro b st
    simp [serverRun]
  | cons f rest ih =>
    intro b st
    simp only [List.cons_append, serverRun, List.append_eq]
    rw [ih b (serverFrame t st f).1]
    simp [List.append_assoc]

theorem detectorScoreStep_no_debug (t : ℚ) (dbg : Bool) (p : String × ℚ)
    (fr : Nat) (q : ℚ) : Act.emitDebug fr q ∉ detectorScoreStep t dbg p := by
  unfold detectorScoreStep
  split_ifs <;> simp

theorem detectorFrameActs_no_debug (t : ℚ) (dbg : Bool) (ps : List (String × ℚ))
    (fr : Nat) (q : ℚ) : Act.emitDebug fr q ∉ detectorFrameActs t dbg ps := by
  unfold detectorFrameActs
  intro h
  rw [List.mem_flatten] at h
  obtain ⟨l, hl, hmem⟩ := h
  rw [List.mem_map] at hl
  obtain ⟨p, hp, hlp⟩ := hl
  rw [← hlp] at hmem
  exact detectorScoreStep_no_debug t dbg p fr q hmem

theorem detectorInnerGo_no_debug (t : ℚ) (dbg : Bool)
    (oracle : Nat → Option (List (String × ℚ))) :
    ∀ (fuel : Nat) (st : DetSt) (fr : Nat) (q : ℚ),
      Act.emitDebug fr q ∉ (detectorInnerGo t dbg oracle fuel st).2 := by
  intro fuel
  induction fuel with
  | zero =>
    intro st fr q
    simp [detectorInnerGo]
  | succ n ih =>
    intro st fr q
    simp only [detectorInnerGo]
    by_cases h : frameSize ≤ st.buf.length
    · rw [if_pos h]
      cases horc : oracle st.calls with
      | none => cases dbg <;> simp
      | some ps =>
        intro hmem
        rcases List.mem_append.mp hmem with h1 | h1
        · exact detectorFrameActs_no_debug t dbg ps fr q h1
        · exact ih _ fr q h1
    · rw [if_neg h]
      simp

theorem detectorLoop_no_debug (t : ℚ) (dbg : Bool)
    (oracle : Nat → Option (List (String × ℚ))) :
    ∀ (reads : List (List Nat)) (st : DetSt) (fr : Nat) (q : ℚ),
      Act.emitDebug fr q ∉ (detectorLoop t dbg oracle reads st).2 := by
  intro reads
  induction reads with
  | nil =>
    intro st fr q
    simp [detectorLoop]
  | cons c rest ih =>
    intro st fr q
    simp only [detectorLoop, detectorInner]
    split_ifs with h
    · simp
    · intro hmem
      rcases List.mem_append.mp hmem with h1 | h1
      · exact detectorInnerGo_no_debug t dbg oracle _ _ fr q h1
      · exact ih _ fr q h1

/-- Claim C6, amended: in the server variant, a 50-frame window starting
at a telemetry boundary whose scores are all nonnegative and never above
the threshold ends with exactly one `DebugEvent` carrying
`frames_processed` and the rounded rolling maximum, and resets the rolling
maximum to 0; the reported (pre-rounding) rolling maximum is the true
maximum of all scores observed in the window (it bounds every observed
score and is attained, or the window held no score and it is 0). The
detector variant never emits any periodic `DebugEvent`. -/
theorem C6_telemetry (t : ℚ) (c0 : Nat) (frames : List (List (String × ℚ)))
    (hc : c0 % 50 = 0) (hlen : frames.length = 50)
    (hs : ∀ f ∈ frames, ∀ p ∈ f, 0 ≤ p.2 ∧ ¬ t < p.2) :
    serverRun t (c0, 0) frames =
      ((c0 + 50, 0), [Act.emitDebug (c0 + 50) (round3 (runMax 0 frames))]) ∧
    (∀ f ∈ frames, ∀ p ∈ f, p.2 ≤ runMax 0 frames) ∧
    (runMax 0 frames = 0 ∨ ∃ f ∈ frames, ∃ p ∈ f, runMax 0 frames = p.2) ∧
    (∀ (dbg : Bool) (oracle : Nat → Option (List (String × ℚ)))
        (reads : List (List Nat)) (dst : DetSt) (fr : Nat) (q : ℚ),
      Act.emitDebug fr q ∉ (detectorLoop t dbg oracle reads dst).2) := by
  have hdlen : (frames.drop 49).length = 1 := by
    rw [List.length_drop, hlen]
  obtain ⟨x, hx⟩ := List.length_eq_one.mp hdlen
  have hframes : frames = frames.take 49 ++ [x] := by
    rw [← hx]
    exact (List.take_append_drop 49 frames).symm
  have htlen : (frames.take 49).length = 49 := by
    rw [List.length_take, hlen]
    omega
  have hxmem : x ∈ frames := by
    rw [hframes]
    exact List.mem_append_right _ (by simp)
  refine ⟨?_, ?_, ?_, ?_⟩
  · rw [hframes, serverRun_append]
    have hsc : ∀ f ∈ frames.take 49, ∀ p ∈ f, ¬ t < p.2 :=
      fun f hf p hp => (hs f (List.take_subset 49 frames hf) p hp).2
    have hnb : ∀ i, i < (frames.take 49).length → ¬ (c0 + i + 1) % 50 = 0 := by
      intro i hi
      rw [htlen] at hi
      omega
    rw [serverRun_no_tel t (frames.take 49) c0 0 hsc hnb]
    simp only [htlen]
    simp only [serverRun, serverFrame]
    rw [serverScores_no_det t x (runMax 0 (frames.take 49))
        (fun p hp => (hs x hxmem p hp).2)]
    have hb : (c0 + 49 + 1) % 50 = 0 := by omega
    simp only [serverTelemetry]
    rw [if_pos hb]
    have hrm : runMax 0 (frames.take 49 ++ [x]) =
        pairsMax (runMax 0 (frames.take 49)) x := by
      rw [runMax_append, runMax_cons]
      rfl
    rw [hrm]
    have h50 : c0 + 49 + 1 = c0 + 50 := by omega
    rw [h50]
    simp
  · intro f hf p hp
    exact runMax_le_of_mem frames 0 f p hf hp
  · exact runMax_cases frames 0
  · intro dbg oracle reads dst fr q
    exact detectorLoop_no_debug t dbg oracle reads dst fr q

/-- Witness for C6: fifty frames each scoring 0 for detector
`"hey_jarvis"` against threshold 1, starting at frame count 0. -/
theorem C6_telemetry_witness :
    ((0 : Nat) % 50 = 0) ∧
    ((List.replicate 50 [("hey_jarvis", (0 : ℚ))]).length = 50) ∧
    (∀ f ∈ List.replicate 50 [("hey_jarvis", (0 : ℚ))], ∀ p ∈ f,
      0 ≤ p.2 ∧ ¬ (1 : ℚ) < p.2) ∧
    (serverRun 1 (0, 0) (List.replicate 50 [("hey_jarvis", (0 : ℚ))]) =
      ((0 + 50, 0), [Act.emitDebug (0 + 50)
        (round3 (runMax 0 (List.replicate 50 [("hey_jarvis", (0 : ℚ))])))]) ∧
     (∀ f ∈ List.replicate 50 [("hey_jarvis", (0 : ℚ))], ∀ p ∈ f,
        p.2 ≤ runMax 0 (List.replicate 50 [("hey_jarvis", (0 : ℚ))])) ∧
     (runMax 0 (List.replicate 50 [("hey_jarvis", (0 : ℚ))]) = 0 ∨
        ∃ f ∈ List.replicate 50 [("hey_jarvis", (0 : ℚ))], ∃ p ∈ f,
          runMax 0 (List.replicate 50 [("hey_jarvis", (0 : ℚ))]) = p.2) ∧
     (∀ (dbg : Bool) (oracle : Nat → Option (List (String × ℚ)))
         (reads : List (List Nat)) (dst : DetSt) (fr : Nat) (q : ℚ),
       Act.emitDebug fr q ∉ (detectorLoop 1 dbg oracle reads dst).2)) := by
  have hc : (0 : Nat) % 50 = 0 := rfl
  have hlen : (List.replicate 50 [("hey_jarvis", (0 : ℚ))]).length = 50 := by
    rw [List.length_replicate]
  have hs : ∀ f ∈ List.replicate 50 [("hey_jarvis", (0 : ℚ))], ∀ p ∈ f,
      0 ≤ p.2 ∧ ¬ (1 : ℚ) < p.2 := by
    intro f hf p hp
    rw [List.eq_of_mem_replicate hf] at hp
    simp only [List.mem_singleton] at hp
    rw [hp]
    norm_num
  exact ⟨hc, hlen, hs, C6_telemetry 1 0 (List.replicate 50 [("hey_jarvis", 0)]) hc hlen hs⟩

/-- Counterexample to claim C6 as stated: the detector variant, having
processed 50 complete frames (its call counter reaches 50), emits no
`DebugEvent` at all — its whole trace is the stopped record. -/
theorem C6_counterexample :
    detectorLoop 1 false (fun _ => some [("hey_jarvis", (0 : ℚ))])
        (List.replicate 50 (List.replicate frameSize 0)) ⟨[], 0⟩ =
      (⟨[], 0 + 50⟩, [Act.emitStopped]) := by
  have ha : ∀ c ∈ List.replicate 50 (List.replicate frameSize (0 : Nat)),
      c.length = frameSize := by
    intro c hc
    rw [List.eq_of_mem_replicate hc, List.length_replicate]
  rw [detectorLoop_aligned 1 false (fun _ => some [("hey_jarvis", (0 : ℚ))])
      (List.replicate 50 (List.replicate frameSize 0)) 0 ha]
  rw [List.length_replicate]
  have htr : ∀ (n calls : Nat),
      tracesFrom 1 false (fun _ => some [("hey_jarvis", (0 : ℚ))]) calls n = [] := by
    intro n
    induction n with
    | zero => intro calls; rfl
    | succ k ih =>
      intro calls
      simp only [tracesFrom, ih]
      norm_num [detFrameOut, detectorFrameActs, detectorScoreStep]
  rw [htr 50 0]
  simp

end Oww
